import Mathlib

/-!
Verification of the Verlet cloth simulation in `src/game.cpp` (GRIDSIZE = 256).

Modelling conventions.
Float values are idealized as real numbers.  The template's shared random
generator is modelled as a fixed stream `u : ℕ → ℝ` of unit draws together
with a cursor carried in the simulation state: the k-th call `Rand(r)`
returns `u k * r` (uniform in `[0, r)` when `u k ∈ [0, 1)`).  The four
arguments of each `_mm_set_ps` call are evaluated left to right and fill
SIMD lanes 3, 2, 1, 0, so lane `l` of a group receives draw `3 - l` of its
block; within a group the blocks are chance draws, x draws, y draws, twelve
draws in total.  C arrays become total functions (`ℕ → ℝ` for the flat SoA
arrays, `ℤ × ℤ → ℝ × ℝ` for the point grid); a loop is a `List.foldl` over
the list of visited indices in visit order.  The `isfinite` guard of the
constraint solver is modelled by passing the computed distance as a value
that is either a finite real or a non-finite marker (NaN / infinity).
-/

set_option maxHeartbeats 1000000

abbrev Vec2 : Type := ℝ × ℝ

/-- A point grid: current (or previous) position for every logical coordinate. -/
abbrev Grid : Type := ℤ × ℤ → Vec2

/-- Grid key of the point with loop counters `(x, y)` (game.cpp `grid(x, y)`). -/
def pk (p : ℕ × ℕ) : ℤ × ℤ := ((p.1 : ℤ), (p.2 : ℤ))

/-- Flat index `x + y * GRIDSIZE` of point `(x, y)` in the SoA arrays
(game.cpp line 92 and lines 170, 209, 253). -/
def pidx (p : ℕ × ℕ) : ℕ := p.1 + p.2 * 256

/-- Flat index recovered from a grid key (inverse of `pk` composed with `pidx`
on in-range keys). -/
def idxK (k : ℤ × ℤ) : ℕ := (k.1 + k.2 * 256).toNat

/-- A C float as seen by `isfinite`: a finite real, NaN, or an infinity. -/
inductive FVal where
  | fin (x : ℝ)
  | nan
  | inf

/-- The `isfinite` test applied at game.cpp line 226. -/
def FVal.isfinite : FVal → Bool
  | .fin _ => true
  | .nan => false
  | .inf => false

/-- Euclidean length of a `float2` (the template's `length`). -/
noncomputable def len (v : Vec2) : ℝ := Real.sqrt (v.1 ^ 2 + v.2 ^ 2)

/-- `xoffset` (game.cpp line 66): links are right, left, down, up. -/
def xoffset : Fin 4 → ℤ
  | 0 => 1
  | 1 => -1
  | 2 => 0
  | 3 => 0

/-- `yoffset` (game.cpp line 66). -/
def yoffset : Fin 4 → ℤ
  | 0 => 0
  | 1 => 0
  | 2 => 1
  | 3 => -1

/-- Grid key of the neighbour reached through link `c` (game.cpp line 224). -/
def nbrKey (k : ℤ × ℤ) (c : Fin 4) : ℤ × ℤ := (k.1 + xoffset c, k.2 + yoffset c)

/-- One link of the constraint solver (game.cpp lines 225-237): `pointpos` is
the local accumulator of the enclosing point, `npos` the neighbour's grid
entry, `distance` the computed float distance.  A non-finite distance skips
the link; a distance above the rest length pulls the two points together
symmetrically; otherwise nothing happens. -/
noncomputable def linkRelax (restlength : ℝ) (pointpos npos : Vec2) (distance : FVal) :
    Vec2 × Vec2 :=
  match distance with
  | .fin d =>
      if d > restlength then
        let extra := d / restlength - 1
        let dir := npos - pointpos
        (pointpos + (extra * 0.5) • dir, npos - (extra * 0.5) • dir)
      else (pointpos, npos)
  | .nan => (pointpos, npos)
  | .inf => (pointpos, npos)

/-- One iteration of the `linknr` loop (game.cpp lines 223-238).  The
accumulator carries the local `pointpos` and the grid; the neighbour entry is
read from and written back to the grid immediately. -/
noncomputable def linkStep (rest : ℤ × ℤ → Fin 4 → ℝ) (k : ℤ × ℤ)
    (acc : Vec2 × Grid) (c : Fin 4) : Vec2 × Grid :=
  let nk := nbrKey k c
  let r := linkRelax (rest k c) acc.1 (acc.2 nk) (.fin (len (acc.2 nk - acc.1)))
  (r.1, Function.update acc.2 nk r.2)

/-- Processing of one point in a relaxation pass (game.cpp lines 221-240):
fold the four links, then store the accumulated `pointpos`. -/
noncomputable def processPoint (rest : ℤ × ℤ → Fin 4 → ℝ) (g : Grid) (k : ℤ × ℤ) : Grid :=
  let r := (List.finRange 4).foldl (linkStep rest k) (g k, g)
  Function.update r.2 k r.1

/-- The `(x, y)` pairs visited by `for y in ys { for x in xs }`, in visit
order. -/
def loopPairs (xs ys : List ℕ) : List (ℕ × ℕ) :=
  ys.foldr (fun y acc => xs.foldr (fun x acc' => (x, y) :: acc') acc) []

/-- Pairs of the full-grid loops `for (y = 0; y < 256; y++) for (x = 0; x < 256; x++)`
(game.cpp lines 90-91, 197, 207-208, 251-252). -/
def allPairs : List (ℕ × ℕ) := loopPairs (List.range' 0 256) (List.range' 0 256)

/-- Pairs of the interior loops `for (y = 1; y < 255; y++) for (x = 1; x < 255; x++)`
(game.cpp lines 82 and 219-220): the traversal of a relaxation pass and of the
rest-length initialization. -/
def innerPairs : List (ℕ × ℕ) := loopPairs (List.range' 1 254) (List.range' 1 254)

/-- One relaxation pass over the interior points (game.cpp lines 219-242). -/
noncomputable def relaxPass (rest : ℤ × ℤ → Fin 4 → ℝ) (g : Grid) : Grid :=
  innerPairs.foldl (fun g' p => processPoint rest g' (pk p)) g

/-- Re-pinning of the fixed row (game.cpp lines 244-247). -/
def repinPass (fix : ℤ × ℤ → Vec2) (g : Grid) : Grid :=
  (List.range' 0 256).foldl
    (fun g' (x : ℕ) => Function.update g' ((x : ℤ), 0) (fix ((x : ℤ), 0))) g

/-- Points marked `fixed` at initialization: exactly the row `y = 0`
(game.cpp lines 75-80). -/
def isPinned (p : ℕ × ℕ) : Prop := p.2 = 0

/-- The per-point `restlength` row written by the initialization loop body
(game.cpp line 85): distance to each neighbour times 1.15. -/
noncomputable def restRow (p0 : ℤ × ℤ → Vec2) (k : ℤ × ℤ) : Fin 4 → Option ℝ :=
  fun c => some (len (p0 k - p0 (nbrKey k c)) * 1.15)

/-- The rest-length table produced by the initialization loop (game.cpp lines
82-87) from seeded initial positions `p0`.  Only interior points are visited;
`none` models storage the loop never writes. -/
noncomputable def restInit (p0 : ℤ × ℤ → Vec2) : (ℤ × ℤ) → Fin 4 → Option ℝ :=
  innerPairs.foldl
    (fun m p => Function.update m (pk p) (restRow p0 (pk p)))
    (fun _ _ => none)

/-- Index of point `(x, y)` in the SoA position arrays, from the conversion
loop (game.cpp line 92). -/
def posIndex (x y : ℕ) : ℕ := x + y * 256

/-- Index at which the conversion loop stores `restlength[c]` of point
`(x, y)` into the flat `rest` array: `rest[idx + c]` (game.cpp lines 105-108). -/
def restIndex (x y c : ℕ) : ℕ := posIndex x y + c

/-- The simulation state mutated by `Game::Simulation`: the SoA arrays, the
AoS point grid, the `magic` scalar and the cursor into the random stream.
The `fix` positions and the rest lengths are never written by the simulation
and are passed as parameters. -/
@[ext] structure SimState where
  pos_x : ℕ → ℝ
  pos_y : ℕ → ℝ
  prev_pos_x : ℕ → ℝ
  prev_pos_y : ℕ → ℝ
  gpos : ℤ × ℤ → Vec2
  gprev : ℤ × ℤ → Vec2
  magic : ℝ
  rng : ℕ

/-- New x position of lane `l` of a SIMD group (game.cpp lines 172-193):
Verlet step plus the masked wind impulse.  `base` is the rand cursor at the
start of the group; lane `l` takes draw `base + (3 - l)` for the chance and
draw `base + 4 + (3 - l)` for the x impulse, scaled by `0.02 + magic`. -/
noncomputable def laneX (u : ℕ → ℝ) (magic : ℝ) (base l : ℕ) (cur prev : ℝ) : ℝ :=
  cur + (cur - prev) +
    (if u (base + (3 - l)) * 10 < 0.03 then u (base + 4 + (3 - l)) * (0.02 + magic) else 0)

/-- New y position of lane `l` of a SIMD group: Verlet step, gravity 0.003,
and the masked wind impulse with y draw `base + 8 + (3 - l)` scaled by 0.12. -/
noncomputable def laneY (u : ℕ → ℝ) (base l : ℕ) (cur prev : ℝ) : ℝ :=
  cur + (cur - prev) + 0.003 +
    (if u (base + (3 - l)) * 10 < 0.03 then u (base + 8 + (3 - l)) * 0.12 else 0)

/-- One iteration of the SIMD integration loop (game.cpp lines 168-194),
operating on the four floats `4*idx .. 4*idx+3` and consuming twelve draws. -/
noncomputable def groupStep (u : ℕ → ℝ) (s : SimState) (idx : ℕ) : SimState :=
  { s with
    pos_x := fun j => if 4 * idx ≤ j ∧ j < 4 * idx + 4
      then laneX u s.magic s.rng (j - 4 * idx) (s.pos_x j) (s.prev_pos_x j)
      else s.pos_x j
    pos_y := fun j => if 4 * idx ≤ j ∧ j < 4 * idx + 4
      then laneY u s.rng (j - 4 * idx) (s.pos_y j) (s.prev_pos_y j)
      else s.pos_y j
    prev_pos_x := fun j => if 4 * idx ≤ j ∧ j < 4 * idx + 4 then s.pos_x j else s.prev_pos_x j
    prev_pos_y := fun j => if 4 * idx ≤ j ∧ j < 4 * idx + 4 then s.pos_y j else s.prev_pos_y j
    rng := s.rng + 12 }

/-- The `idx` values of the SIMD loop: `for (y = 0; y < 64; y++)
for (x = 0; x < 256; x++)` with `idx = x + y * 256` (game.cpp lines 168-170). -/
def simdIdxs : List ℕ :=
  (loopPairs (List.range' 0 256) (List.range' 0 64)).map (fun p => p.1 + p.2 * 256)

/-- The SIMD integration loop (game.cpp lines 168-195). -/
noncomputable def simdLoop (u : ℕ → ℝ) (s : SimState) : SimState :=
  simdIdxs.foldl (groupStep u) s

/-- Body of the scalar AoS integration loop (game.cpp lines 197-202).  The
chance draw is always consumed; the two impulse draws (x first, then y) only
when the chance draw hits. -/
noncomputable def pointIntegrate (u : ℕ → ℝ) (s : SimState) (p : ℕ × ℕ) : SimState :=
  let curpos := s.gpos (pk p)
  let newpos := curpos + (curpos - s.gprev (pk p)) + ((0 : ℝ), (0.003 : ℝ))
  if u s.rng * 10 < 0.03 then
    { s with
      gpos := Function.update s.gpos (pk p)
        (newpos + (u (s.rng + 1) * (0.02 + s.magic), u (s.rng + 2) * 0.12)),
      gprev := Function.update s.gprev (pk p) curpos,
      rng := s.rng + 3 }
  else
    { s with
      gpos := Function.update s.gpos (pk p) newpos,
      gprev := Function.update s.gprev (pk p) curpos,
      rng := s.rng + 1 }

/-- The scalar integration loop run in a caller-chosen point order. -/
noncomputable def scalarLoopOrder (u : ℕ → ℝ) (order : List (ℕ × ℕ)) (s : SimState) :
    SimState :=
  order.foldl (pointIntegrate u) s

/-- The scalar AoS integration loop (game.cpp lines 197-202), row-major. -/
noncomputable def scalarLoop (u : ℕ → ℝ) (s : SimState) : SimState :=
  scalarLoopOrder u allPairs s

/-- `magic += 0.0002f` (game.cpp line 205), once per sub-step. -/
def magicStep (s : SimState) : SimState := { s with magic := s.magic + 0.0002 }

/-- Body of the SoA-to-grid copy loop (game.cpp lines 209-214). -/
def copyToGridBody (t : SimState) (p : ℕ × ℕ) : SimState :=
  { t with
    gpos := Function.update t.gpos (pk p) (t.pos_x (pidx p), t.pos_y (pidx p)),
    gprev := Function.update t.gprev (pk p) (t.prev_pos_x (pidx p), t.prev_pos_y (pidx p)) }

/-- The SoA-to-grid copy loop (game.cpp lines 207-215). -/
def copyToGrid (s : SimState) : SimState := allPairs.foldl copyToGridBody s

/-- Body of the grid-to-SoA copy loop (game.cpp lines 253-257). -/
def copyBackBody (t : SimState) (p : ℕ × ℕ) : SimState :=
  { t with
    pos_x := Function.update t.pos_x (pidx p) (t.gpos (pk p)).1,
    pos_y := Function.update t.pos_y (pidx p) (t.gpos (pk p)).2,
    prev_pos_x := Function.update t.prev_pos_x (pidx p) (t.gprev (pk p)).1,
    prev_pos_y := Function.update t.prev_pos_y (pidx p) (t.gprev (pk p)).2 }

/-- The grid-to-SoA copy loop (game.cpp lines 251-259). -/
def copyBack (s : SimState) : SimState := allPairs.foldl copyBackBody s

/-- One iteration of the constraint loop: a relaxation pass followed by
re-pinning the fixed row (game.cpp lines 218-248). -/
noncomputable def constraintStep (rest : ℤ × ℤ → Fin 4 → ℝ) (fix : ℤ × ℤ → Vec2)
    (s : SimState) : SimState :=
  { s with gpos := repinPass fix (relaxPass rest s.gpos) }

/-- The `for (i = 0; i < 4; i++)` constraint loop (game.cpp line 218). -/
noncomputable def constraintPhase (rest : ℤ × ℤ → Fin 4 → ℝ) (fix : ℤ × ℤ → Vec2)
    (s : SimState) : SimState :=
  (List.range' 0 4).foldl (fun t _ => constraintStep rest fix t) s

/-- The integration phase of one sub-step (game.cpp lines 166-215): SIMD
loop, scalar loop, magic increment, SoA-to-grid copy, in program order. -/
noncomputable def integPhase (u : ℕ → ℝ) (s : SimState) : SimState :=
  copyToGrid (magicStep (scalarLoop u (simdLoop u s)))

/-- The integration phase with the redundant scalar AoS loop skipped - the
comparison point for the refinement claim about the scalar loop. -/
noncomputable def integPhaseNoScalar (u : ℕ → ℝ) (s : SimState) : SimState :=
  copyToGrid (magicStep (simdLoop u s))

/-- One sub-step of `Game::Simulation` (the body of the `steps` loop,
game.cpp lines 165-260). -/
noncomputable def subStep (u : ℕ → ℝ) (rest : ℤ × ℤ → Fin 4 → ℝ)
    (fix : ℤ × ℤ → Vec2) (s : SimState) : SimState :=
  copyBack (constraintPhase rest fix (integPhase u s))

/-- `Game::Simulation` (game.cpp lines 163-261): three sub-steps. -/
noncomputable def Simulation (u : ℕ → ℝ) (rest : ℤ × ℤ → Fin 4 → ℝ)
    (fix : ℤ × ℤ → Vec2) (s : SimState) : SimState :=
  (List.range' 0 3).foldl (fun t _ => subStep u rest fix t) s

/-- The SoA arrays and the point grid agree (as established by `Game::Init`
and re-established by the grid-to-SoA copy at the end of every sub-step). -/
def Synced (s : SimState) : Prop :=
  ∀ x y : ℕ, x < 256 → y < 256 →
    s.pos_x (pidx (x, y)) = (s.gpos (pk (x, y))).1 ∧
    s.pos_y (pidx (x, y)) = (s.gpos (pk (x, y))).2 ∧
    s.prev_pos_x (pidx (x, y)) = (s.gprev (pk (x, y))).1 ∧
    s.prev_pos_y (pidx (x, y)) = (s.gprev (pk (x, y))).2

/-- The effective per-point Verlet integrator realized by the SIMD loop on
point `(x, y)`: its float index is `pidx (x, y)`, its group is
`pidx (x, y) / 4`, its lane `pidx (x, y) % 4`, and each group consumes twelve
draws starting from `rng0 + 12 * group`. -/
noncomputable def integratorPoint (u : ℕ → ℝ) (rng0 : ℕ) (magic : ℝ) (x y : ℕ)
    (pos prev : Vec2) : Vec2 :=
  (laneX u magic (rng0 + 12 * (pidx (x, y) / 4)) (pidx (x, y) % 4) pos.1 prev.1,
   laneY u (rng0 + 12 * (pidx (x, y) / 4)) (pidx (x, y) % 4) pos.2 prev.2)

/-- Spec-side integrator body with per-point draws `(chance, x, y)` assigned
by a fixed function of the point, as the spec requires for order
independence; otherwise identical to the scalar loop body. -/
noncomputable def pointIntegrateAssigned (d : ℕ × ℕ → ℝ × ℝ × ℝ) (s : SimState)
    (p : ℕ × ℕ) : SimState :=
  let curpos := s.gpos (pk p)
  let newpos := curpos + (curpos - s.gprev (pk p)) + ((0 : ℝ), (0.003 : ℝ))
  { s with
    gpos := Function.update s.gpos (pk p)
      (newpos + (if (d p).1 * 10 < 0.03
        then ((d p).2.1 * (0.02 + s.magic), (d p).2.2 * 0.12) else 0)),
    gprev := Function.update s.gprev (pk p) curpos }

/-- The integrator with assigned draws run in a caller-chosen point order. -/
noncomputable def assignedLoop (d : ℕ × ℕ → ℝ × ℝ × ℝ) (order : List (ℕ × ℕ))
    (s : SimState) : SimState :=
  order.foldl (pointIntegrateAssigned d) s

/-- Swap the first two elements of a list (a transposition of the traversal). -/
def swapFirstTwo : List α → List α
  | a :: b :: t => b :: a :: t
  | l => l

/-- Chance-draw values for which the wind impulse is applied:
`draw < 0.03` (game.cpp lines 160, 186 and 201). -/
def windAccept : Set ℝ := {d : ℝ | d < 0.03}

/-- The chance draw is `Rand(10)`: uniform on `[0, 10)` (game.cpp lines 185
and 201). -/
def windDrawRange : Set ℝ := Set.Ico (0 : ℝ) 10

/-- A concrete random stream: draw 0 hits the wind chance, every later draw
misses it. -/
noncomputable def u0 : ℕ → ℝ := fun k => if k = 0 then 0 else 1 / 2

/-- A concrete synced state: everything at the origin, `magic` at its initial
value 0.11 (game.cpp line 158), cursor 0. -/
def s0 : SimState :=
  { pos_x := fun _ => 0, pos_y := fun _ => 0, prev_pos_x := fun _ => 0,
    prev_pos_y := fun _ => 0, gpos := fun _ => (0, 0), gprev := fun _ => (0, 0),
    magic := 0.11, rng := 0 }

/-- A concrete rest-length table. -/
def rest0 : ℤ × ℤ → Fin 4 → ℝ := fun _ _ => 1

/-- A concrete table of pinned positions. -/
def fix0 : ℤ × ℤ → Vec2 := fun _ => (3, 4)

/-- A concrete family of seeded initial positions. -/
def c00 : ℤ × ℤ → Vec2 := fun _ => (0, 0)

/-! ### List and fold helper lemmas -/

theorem foldr_cons_row (y : ℕ) (xs : List ℕ) (L : List (ℕ × ℕ)) :
    xs.foldr (fun x acc' => (x, y) :: acc') L = xs.map (fun x => (x, y)) ++ L := by
  induction xs with
  | nil => rfl
  | cons a xs ih => simp [ih]

theorem loopPairs_cons (xs : List ℕ) (y : ℕ) (ys : List ℕ) :
    loopPairs xs (y :: ys) = xs.map (fun x => (x, y)) ++ loopPairs xs ys :=
  foldr_cons_row y xs (loopPairs xs ys)

theorem mem_loopPairs (xs ys : List ℕ) (p : ℕ × ℕ) :
    p ∈ loopPairs xs ys ↔ p.1 ∈ xs ∧ p.2 ∈ ys := by
  induction ys with
  | nil => simp [loopPairs]
  | cons y ys ih =>
    rw [loopPairs_cons]
    simp only [List.mem_append, List.mem_map, ih, List.mem_cons]
    constructor
    · rintro (⟨x, hx, rfl⟩ | ⟨h1, h2⟩)
      · exact ⟨hx, Or.inl rfl⟩
      · exact ⟨h1, Or.inr h2⟩
    · rintro ⟨h1, h2 | h2⟩
      · exact Or.inl ⟨p.1, h1, by cases p; simp_all⟩
      · exact Or.inr ⟨h1, h2⟩

theorem nodup_loopPairs (xs ys : List ℕ) (hx : xs.Nodup) (hy : ys.Nodup) :
    (loopPairs xs ys).Nodup := by
  induction ys with
  | nil => simp [loopPairs]
  | cons y ys ih =>
    rw [loopPairs_cons]
    rcases List.nodup_cons.mp hy with ⟨hyn, hys⟩
    refine List.Nodup.append (hx.map ?_) (ih hys) ?_
    · intro a b hab
      simpa using congrArg Prod.fst hab
    · intro q hq1 hq2
      rcases List.mem_map.mp hq1 with ⟨x, _, rfl⟩
      have := ((mem_loopPairs xs ys (x, y)).mp hq2).2
      exact hyn this

theorem mem_allPairs (p : ℕ × ℕ) : p ∈ allPairs ↔ p.1 < 256 ∧ p.2 < 256 := by
  rw [allPairs, mem_loopPairs]
  simp [List.mem_range'_1]

theorem mem_innerPairs (p : ℕ × ℕ) :
    p ∈ innerPairs ↔ (1 ≤ p.1 ∧ p.1 ≤ 254) ∧ (1 ≤ p.2 ∧ p.2 ≤ 254) := by
  rw [innerPairs, mem_loopPairs]
  simp only [List.mem_range'_1]
  omega

theorem pk_injective : Function.Injective pk := by
  intro p q h
  rcases p with ⟨a, b⟩
  rcases q with ⟨c, d⟩
  simp only [pk, Prod.mk.injEq, Int.natCast_inj] at h
  simp [Prod.mk.injEq, h.1, h.2]

theorem foldl_update_key_nomem {ι α β : Type _} [DecidableEq α] (key : ι → α) (f : α → β) :
    ∀ (l : List ι) (g : α → β) (q : α), (∀ i ∈ l, key i ≠ q) →
      l.foldl (fun g' i => Function.update g' (key i) (f (key i))) g q = g q
  | [], _, _, _ => rfl
  | a :: l, g, q, h => by
    rw [List.foldl_cons,
      foldl_update_key_nomem key f l _ q (fun i hi => h i (List.mem_cons_of_mem a hi))]
    exact Function.update_noteq (fun hq => h a (List.mem_cons_self a l) hq.symm) _ g

theorem foldl_update_key_mem {ι α β : Type _} [DecidableEq α] (key : ι → α) (f : α → β) :
    ∀ (l : List ι) (g : α → β) (q : α), (∃ i ∈ l, key i = q) →
      l.foldl (fun g' i => Function.update g' (key i) (f (key i))) g q = f q
  | [], _, _, h => absurd h (by simp)
  | a :: l, g, q, h => by
    rw [List.foldl_cons]
    by_cases h2 : ∃ i ∈ l, key i = q
    · exact foldl_update_key_mem key f l _ q h2
    · push_neg at h2
      have hq : key a = q := by
        rcases h with ⟨i, hi, hk⟩
        rcases List.mem_cons.mp hi with rfl | hi'
        · exact hk
        · exact absurd hk (h2 i hi')
      rw [foldl_update_key_nomem key f l _ q h2, hq, Function.update_same]

theorem loopPairs_linear (b : ℕ) : ∀ (n y0 : ℕ),
    (loopPairs (List.range' 0 b) (List.range' y0 n)).map (fun p => p.1 + p.2 * b)
      = List.range' (y0 * b) (n * b)
  | 0, y0 => by simp [loopPairs]
  | n + 1, y0 => by
    rw [List.range'_succ, loopPairs_cons, List.map_append, loopPairs_linear b n (y0 + 1)]
    have h1 : ((List.range' 0 b).map (fun x => (x, y0))).map (fun p : ℕ × ℕ => p.1 + p.2 * b)
        = List.range' (y0 * b) b := by
      rw [List.map_map]
      have h2 : ((fun p : ℕ × ℕ => p.1 + p.2 * b) ∘ fun x => (x, y0)) = fun x => y0 * b + x := by
        funext x
        simp [Nat.add_comm]
      rw [h2]
      simp
    rw [h1]
    have h4 : (y0 + 1) * b = y0 * b + b := by ring
    rw [h4, List.range'_append_1]
    congr 1
    ring

theorem simdIdxs_eq : simdIdxs = List.range' 0 16384 := by
  have h := loopPairs_linear 256 64 0
  simpa using h

theorem allPairs_cons : allPairs = (0, 0) :: (1, 0) :: allPairs.drop 2 := rfl

theorem nodup_allPairs : allPairs.Nodup :=
  nodup_loopPairs _ _ (List.nodup_range' 0 256) (List.nodup_range' 0 256)

theorem not_mem_drop2 : ((0, 0) : ℕ × ℕ) ∉ allPairs.drop 2 := by
  have h := nodup_allPairs
  rw [allPairs_cons] at h
  rcases List.nodup_cons.mp h with ⟨h1, _⟩
  intro hc
  exact h1 (List.mem_cons_of_mem _ hc)

/-! ### Characterization of the SIMD integration loop -/

theorem simdFold_char (u : ℕ → ℝ) : ∀ (n g0 : ℕ) (s : SimState),
    ((List.range' g0 n).foldl (groupStep u) s).pos_x
        = (fun j => if 4 * g0 ≤ j ∧ j < 4 * (g0 + n)
            then laneX u s.magic (s.rng + 12 * (j / 4 - g0)) (j % 4) (s.pos_x j) (s.prev_pos_x j)
            else s.pos_x j)
    ∧ ((List.range' g0 n).foldl (groupStep u) s).pos_y
        = (fun j => if 4 * g0 ≤ j ∧ j < 4 * (g0 + n)
            then laneY u (s.rng + 12 * (j / 4 - g0)) (j % 4) (s.pos_y j) (s.prev_pos_y j)
            else s.pos_y j)
    ∧ ((List.range' g0 n).foldl (groupStep u) s).prev_pos_x
        = (fun j => if 4 * g0 ≤ j ∧ j < 4 * (g0 + n) then s.pos_x j else s.prev_pos_x j)
    ∧ ((List.range' g0 n).foldl (groupStep u) s).prev_pos_y
        = (fun j => if 4 * g0 ≤ j ∧ j < 4 * (g0 + n) then s.pos_y j else s.prev_pos_y j)
    ∧ ((List.range' g0 n).foldl (groupStep u) s).gpos = s.gpos
    ∧ ((List.range' g0 n).foldl (groupStep u) s).gprev = s.gprev
    ∧ ((List.range' g0 n).foldl (groupStep u) s).magic = s.magic
    ∧ ((List.range' g0 n).foldl (groupStep u) s).rng = s.rng + 12 * n
  | 0, g0, s => by
    refine ⟨?_, ?_, ?_, ?_, rfl, rfl, rfl, by simp⟩ <;>
      · funext j
        rw [if_neg (by omega)]
        rfl
  | n + 1, g0, s => by
    rw [List.range'_succ]
    simp only [List.foldl_cons]
    obtain ⟨h1, h2, h3, h4, h5, h6, h7, h8⟩ := simdFold_char u n (g0 + 1) (groupStep u s g0)
    refine ⟨?_, ?_, ?_, ?_, h5, h6, h7, ?_⟩
    · funext j
      rw [congrFun h1 j]
      simp only [groupStep]
      by_cases ha : 4 * (g0 + 1) ≤ j ∧ j < 4 * (g0 + 1 + n)
      · rw [if_pos ha, if_pos (show 4 * g0 ≤ j ∧ j < 4 * (g0 + (n + 1)) by omega)]
        have hcond : ¬(4 * g0 ≤ j ∧ j < 4 * g0 + 4) := by omega
        simp only [if_neg hcond]
        have hc : s.rng + 12 + 12 * (j / 4 - (g0 + 1)) = s.rng + 12 * (j / 4 - g0) := by
          omega
        rw [hc]
      · rw [if_neg ha]
        by_cases hb : 4 * g0 ≤ j ∧ j < 4 * g0 + 4
        · rw [if_pos hb, if_pos (show 4 * g0 ≤ j ∧ j < 4 * (g0 + (n + 1)) by omega)]
          have e1 : j / 4 - g0 = 0 := by omega
          have e2 : j % 4 = j - 4 * g0 := by omega
          rw [e1, e2]
          simp
        · rw [if_neg hb, if_neg (by omega)]
    · funext j
      rw [congrFun h2 j]
      simp only [groupStep]
      by_cases ha : 4 * (g0 + 1) ≤ j ∧ j < 4 * (g0 + 1 + n)
      · rw [if_pos ha, if_pos (show 4 * g0 ≤ j ∧ j < 4 * (g0 + (n + 1)) by omega)]
        have hcond : ¬(4 * g0 ≤ j ∧ j < 4 * g0 + 4) := by omega
        simp only [if_neg hcond]
        have hc : s.rng + 12 + 12 * (j / 4 - (g0 + 1)) = s.rng + 12 * (j / 4 - g0) := by
          omega
        rw [hc]
      · rw [if_neg ha]
        by_cases hb : 4 * g0 ≤ j ∧ j < 4 * g0 + 4
        · rw [if_pos hb, if_pos (show 4 * g0 ≤ j ∧ j < 4 * (g0 + (n + 1)) by omega)]
          have e1 : j / 4 - g0 = 0 := by omega
          have e2 : j % 4 = j - 4 * g0 := by omega
          rw [e1, e2]
          simp
        · rw [if_neg hb, if_neg (by omega)]
    · funext j
      rw [congrFun h3 j]
      simp only [groupStep]
      by_cases ha : 4 * (g0 + 1) ≤ j ∧ j < 4 * (g0 + 1 + n)
      · rw [if_pos ha, if_pos (show 4 * g0 ≤ j ∧ j < 4 * (g0 + (n + 1)) by omega)]
        have hcond : ¬(4 * g0 ≤ j ∧ j < 4 * g0 + 4) := by omega
        simp only [if_neg hcond]
      · rw [if_neg ha]
        by_cases hb : 4 * g0 ≤ j ∧ j < 4 * g0 + 4
        · rw [if_pos hb, if_pos (show 4 * g0 ≤ j ∧ j < 4 * (g0 + (n + 1)) by omega)]
        · rw [if_neg hb, if_neg (by omega)]
    · funext j
      rw [congrFun h4 j]
      simp only [groupStep]
      by_cases ha : 4 * (g0 + 1) ≤ j ∧ j < 4 * (g0 + 1 + n)
      · rw [if_pos ha, if_pos (show 4 * g0 ≤ j ∧ j < 4 * (g0 + (n + 1)) by omega)]
        have hcond : ¬(4 * g0 ≤ j ∧ j < 4 * g0 + 4) := by omega
        simp only [if_neg hcond]
      · rw [if_neg ha]
        by_cases hb : 4 * g0 ≤ j ∧ j < 4 * g0 + 4
        · rw [if_pos hb, if_pos (show 4 * g0 ≤ j ∧ j < 4 * (g0 + (n + 1)) by omega)]
        · rw [if_neg hb, if_neg (by omega)]
    · rw [h8]
      show s.rng + 12 + 12 * n = s.rng + 12 * (n + 1)
      omega

/-! ### Frames and characterizations of the scalar, copy and re-pin loops -/

theorem idxK_pk (p : ℕ × ℕ) : idxK (pk p) = pidx p := by
  simp only [idxK, pk, pidx]
  have h : ((p.1 : ℤ) + (p.2 : ℤ) * 256) = ((p.1 + p.2 * 256 : ℕ) : ℤ) := by
    push_cast
    ring
  rw [h, Int.toNat_natCast]

theorem pointIntegrate_frame (u : ℕ → ℝ) (s : SimState) (p : ℕ × ℕ) :
    (pointIntegrate u s p).pos_x = s.pos_x ∧ (pointIntegrate u s p).pos_y = s.pos_y
    ∧ (pointIntegrate u s p).prev_pos_x = s.prev_pos_x
    ∧ (pointIntegrate u s p).prev_pos_y = s.prev_pos_y
    ∧ (pointIntegrate u s p).magic = s.magic
    ∧ ∀ k, pk p ≠ k →
        (pointIntegrate u s p).gpos k = s.gpos k
        ∧ (pointIntegrate u s p).gprev k = s.gprev k := by
  by_cases h : u s.rng * 10 < 0.03
  · refine ⟨?_, ?_, ?_, ?_, ?_, fun k hk => ⟨?_, ?_⟩⟩ <;>
      simp only [pointIntegrate, if_pos h]
    · exact Function.update_noteq (Ne.symm hk) _ _
    · exact Function.update_noteq (Ne.symm hk) _ _
  · refine ⟨?_, ?_, ?_, ?_, ?_, fun k hk => ⟨?_, ?_⟩⟩ <;>
      simp only [pointIntegrate, if_neg h]
    · exact Function.update_noteq (Ne.symm hk) _ _
    · exact Function.update_noteq (Ne.symm hk) _ _

theorem scalarFold_frame (u : ℕ → ℝ) : ∀ (l : List (ℕ × ℕ)) (s : SimState),
    (l.foldl (pointIntegrate u) s).pos_x = s.pos_x
    ∧ (l.foldl (pointIntegrate u) s).pos_y = s.pos_y
    ∧ (l.foldl (pointIntegrate u) s).prev_pos_x = s.prev_pos_x
    ∧ (l.foldl (pointIntegrate u) s).prev_pos_y = s.prev_pos_y
    ∧ (l.foldl (pointIntegrate u) s).magic = s.magic
    ∧ ∀ k, (∀ p ∈ l, pk p ≠ k) →
        (l.foldl (pointIntegrate u) s).gpos k = s.gpos k
        ∧ (l.foldl (pointIntegrate u) s).gprev k = s.gprev k
  | [], s => ⟨rfl, rfl, rfl, rfl, rfl, fun _ _ => ⟨rfl, rfl⟩⟩
  | p :: l, s => by
    simp only [List.foldl_cons]
    obtain ⟨a1, a2, a3, a4, a5, a6⟩ := scalarFold_frame u l (pointIntegrate u s p)
    obtain ⟨b1, b2, b3, b4, b5, b6⟩ := pointIntegrate_frame u s p
    refine ⟨a1.trans b1, a2.trans b2, a3.trans b3, a4.trans b4, a5.trans b5, fun k hk => ?_⟩
    obtain ⟨c1, c2⟩ := a6 k (fun q hq => hk q (List.mem_cons_of_mem p hq))
    obtain ⟨d1, d2⟩ := b6 k (hk p (List.mem_cons_self p l))
    exact ⟨c1.trans d1, c2.trans d2⟩

theorem copyFold_frames : ∀ (l : List (ℕ × ℕ)) (s : SimState),
    (l.foldl copyToGridBody s).pos_x = s.pos_x ∧ (l.foldl copyToGridBody s).pos_y = s.pos_y
    ∧ (l.foldl copyToGridBody s).prev_pos_x = s.prev_pos_x
    ∧ (l.foldl copyToGridBody s).prev_pos_y = s.prev_pos_y
    ∧ (l.foldl copyToGridBody s).magic = s.magic
    ∧ (l.foldl copyToGridBody s).rng = s.rng
  | [], _ => ⟨rfl, rfl, rfl, rfl, rfl, rfl⟩
  | p :: l, s => by
    simp only [List.foldl_cons]
    exact copyFold_frames l (copyToGridBody s p)

theorem copyFold_gpos : ∀ (l : List (ℕ × ℕ)) (s : SimState) (k : ℤ × ℤ),
    ((∃ p ∈ l, pk p = k) →
      (l.foldl copyToGridBody s).gpos k = (s.pos_x (idxK k), s.pos_y (idxK k))
      ∧ (l.foldl copyToGridBody s).gprev k = (s.prev_pos_x (idxK k), s.prev_pos_y (idxK k)))
    ∧ ((∀ p ∈ l, pk p ≠ k) →
      (l.foldl copyToGridBody s).gpos k = s.gpos k
      ∧ (l.foldl copyToGridBody s).gprev k = s.gprev k)
  | [], s, k => ⟨fun h => absurd h (by simp), fun _ => ⟨rfl, rfl⟩⟩
  | p :: l, s, k => by
    simp only [List.foldl_cons]
    obtain ⟨ihm, ihn⟩ := copyFold_gpos l (copyToGridBody s p) k
    constructor
    · rintro ⟨q, hq, hkq⟩
      by_cases h2 : ∃ q' ∈ l, pk q' = k
      · exact ihm h2
      · push_neg at h2
        have hpk : pk p = k := by
          rcases List.mem_cons.mp hq with rfl | hq'
          · exact hkq
          · exact absurd hkq (h2 q hq')
        obtain ⟨e1, e2⟩ := ihn h2
        rw [e1, e2]
        constructor
        · show Function.update s.gpos (pk p) (s.pos_x (pidx p), s.pos_y (pidx p)) k = _
          rw [← hpk, Function.update_same, idxK_pk]
        · show Function.update s.gprev (pk p)
            (s.prev_pos_x (pidx p), s.prev_pos_y (pidx p)) k = _
          rw [← hpk, Function.update_same, idxK_pk]
    · intro hk
      obtain ⟨e1, e2⟩ := ihn (fun q hq => hk q (List.mem_cons_of_mem p hq))
      rw [e1, e2]
      have hne : pk p ≠ k := hk p (List.mem_cons_self p l)
      exact ⟨Function.update_noteq (Ne.symm hne) _ _,
        Function.update_noteq (Ne.symm hne) _ _⟩

theorem copyBackFold_frames : ∀ (l : List (ℕ × ℕ)) (s : SimState),
    (l.foldl copyBackBody s).gpos = s.gpos ∧ (l.foldl copyBackBody s).gprev = s.gprev
    ∧ (l.foldl copyBackBody s).magic = s.magic ∧ (l.foldl copyBackBody s).rng = s.rng
  | [], _ => ⟨rfl, rfl, rfl, rfl⟩
  | p :: l, s => by
    simp only [List.foldl_cons]
    exact copyBackFold_frames l (copyBackBody s p)

theorem copyBackFold_nomem : ∀ (l : List (ℕ × ℕ)) (s : SimState) (j : ℕ),
    (∀ p ∈ l, pidx p ≠ j) →
    (l.foldl copyBackBody s).pos_x j = s.pos_x j
    ∧ (l.foldl copyBackBody s).pos_y j = s.pos_y j
    ∧ (l.foldl copyBackBody s).prev_pos_x j = s.prev_pos_x j
    ∧ (l.foldl copyBackBody s).prev_pos_y j = s.prev_pos_y j
  | [], _, _, _ => ⟨rfl, rfl, rfl, rfl⟩
  | p :: l, s, j, h => by
    simp only [List.foldl_cons]
    obtain ⟨e1, e2, e3, e4⟩ :=
      copyBackFold_nomem l (copyBackBody s p) j (fun q hq => h q (List.mem_cons_of_mem p hq))
    rw [e1, e2, e3, e4]
    have hne : pidx p ≠ j := h p (List.mem_cons_self p l)
    exact ⟨Function.update_noteq (Ne.symm hne) _ _, Function.update_noteq (Ne.symm hne) _ _,
      Function.update_noteq (Ne.symm hne) _ _, Function.update_noteq (Ne.symm hne) _ _⟩

theorem copyBackFold_mem : ∀ (l : List (ℕ × ℕ)) (s : SimState) (p : ℕ × ℕ),
    p ∈ l → (∀ q ∈ l, pidx q = pidx p → q = p) →
    (l.foldl copyBackBody s).pos_x (pidx p) = (s.gpos (pk p)).1
    ∧ (l.foldl copyBackBody s).pos_y (pidx p) = (s.gpos (pk p)).2
    ∧ (l.foldl copyBackBody s).prev_pos_x (pidx p) = (s.gprev (pk p)).1
    ∧ (l.foldl copyBackBody s).prev_pos_y (pidx p) = (s.gprev (pk p)).2
  | [], _, _, hp, _ => absurd hp (by simp)
  | a :: l, s, p, hp, huniq => by
    simp only [List.foldl_cons]
    rcases List.mem_cons.mp hp with rfl | hpl
    · by_cases hpl2 : p ∈ l
      · exact copyBackFold_mem l (copyBackBody s p) p hpl2
          (fun q hq hq2 => huniq q (List.mem_cons_of_mem p hq) hq2)
      · have hno : ∀ q ∈ l, pidx q ≠ pidx p := by
          intro q hq hq2
          exact hpl2 ((huniq q (List.mem_cons_of_mem p hq) hq2) ▸ hq)
        obtain ⟨e1, e2, e3, e4⟩ := copyBackFold_nomem l (copyBackBody s p) (pidx p) hno
        rw [e1, e2, e3, e4]
        exact ⟨Function.update_same _ _ _, Function.update_same _ _ _,
          Function.update_same _ _ _, Function.update_same _ _ _⟩
    · exact copyBackFold_mem l (copyBackBody s a) p hpl
        (fun q hq hq2 => huniq q (List.mem_cons_of_mem a hq) hq2)

theorem copyBack_synced (s : SimState) : Synced (copyBack s) := by
  intro x y hx hy
  have hmem : (x, y) ∈ allPairs := (mem_allPairs _).mpr ⟨hx, hy⟩
  have huniq : ∀ q ∈ allPairs, pidx q = pidx (x, y) → q = (x, y) := by
    intro q hq he
    obtain ⟨hq1, hq2⟩ := (mem_allPairs q).mp hq
    simp only [pidx] at he
    have h1 : q.1 = x ∧ q.2 = y := by omega
    cases q
    simp_all
  obtain ⟨e1, e2, e3, e4⟩ := copyBackFold_mem allPairs s (x, y) hmem huniq
  obtain ⟨f1, f2, _, _⟩ := copyBackFold_frames allPairs s
  unfold copyBack
  rw [f1, f2]
  exact ⟨e1, e2, e3, e4⟩

theorem repinPass_mem (fix : ℤ × ℤ → Vec2) (g : Grid) (x : ℕ) (hx : x < 256) :
    repinPass fix g ((x : ℤ), 0) = fix ((x : ℤ), 0) :=
  foldl_update_key_mem (fun x : ℕ => (((x : ℤ), (0 : ℤ)) : ℤ × ℤ)) fix
    (List.range' 0 256) g ((x : ℤ), 0)
    ⟨x, by simp only [List.mem_range'_1]; omega, rfl⟩

theorem restInit_mem (p0 : ℤ × ℤ → Vec2) (p : ℕ × ℕ) (hp : p ∈ innerPairs) :
    restInit p0 (pk p) = restRow p0 (pk p) :=
  foldl_update_key_mem pk (restRow p0) innerPairs (fun _ _ => none) (pk p) ⟨p, hp, rfl⟩

theorem restInit_nomem (p0 : ℤ × ℤ → Vec2) (k : ℤ × ℤ) (hk : ∀ p ∈ innerPairs, pk p ≠ k) :
    restInit p0 k = fun _ => none :=
  foldl_update_key_nomem pk (restRow p0) innerPairs (fun _ _ => none) k hk

/-! ### The observable effect of the integration phase -/

theorem integPhase_char (u : ℕ → ℝ) (s : SimState) (hs : Synced s) (x y : ℕ)
    (hx : x < 256) (hy : y < 256) :
    (integPhase u s).gpos (pk (x, y))
      = integratorPoint u s.rng s.magic x y (s.gpos (pk (x, y))) (s.gprev (pk (x, y)))
    ∧ (integPhase u s).gprev (pk (x, y)) = s.gpos (pk (x, y)) := by
  obtain ⟨q1, q2, q3, q4, _, _, _, _⟩ := simdFold_char u 16384 0 s
  have hts : simdLoop u s = (List.range' 0 16384).foldl (groupStep u) s := by
    rw [simdLoop, simdIdxs_eq]
  have hj : pidx (x, y) < 65536 := by
    simp only [pidx]
    omega
  have hcond : 4 * 0 ≤ pidx (x, y) ∧ pidx (x, y) < 4 * (0 + 16384) := by omega
  have e1 : (simdLoop u s).pos_x (pidx (x, y))
      = laneX u s.magic (s.rng + 12 * (pidx (x, y) / 4)) (pidx (x, y) % 4)
          (s.pos_x (pidx (x, y))) (s.prev_pos_x (pidx (x, y))) := by
    have h := congrFun q1 (pidx (x, y))
    simp only [if_pos hcond, Nat.sub_zero] at h
    rw [hts]
    exact h
  have e2 : (simdLoop u s).pos_y (pidx (x, y))
      = laneY u (s.rng + 12 * (pidx (x, y) / 4)) (pidx (x, y) % 4)
          (s.pos_y (pidx (x, y))) (s.prev_pos_y (pidx (x, y))) := by
    have h := congrFun q2 (pidx (x, y))
    simp only [if_pos hcond, Nat.sub_zero] at h
    rw [hts]
    exact h
  have e3 : (simdLoop u s).prev_pos_x (pidx (x, y)) = s.pos_x (pidx (x, y)) := by
    have h := congrFun q3 (pidx (x, y))
    simp only [if_pos hcond] at h
    rw [hts]
    exact h
  have e4 : (simdLoop u s).prev_pos_y (pidx (x, y)) = s.pos_y (pidx (x, y)) := by
    have h := congrFun q4 (pidx (x, y))
    simp only [if_pos hcond] at h
    rw [hts]
    exact h
  have hI : integPhase u s
      = List.foldl copyToGridBody (magicStep (scalarLoop u (simdLoop u s))) allPairs := rfl
  obtain ⟨a1, a2, a3, a4, _, _⟩ := scalarFold_frame u allPairs (simdLoop u s)
  have a1' : (scalarLoop u (simdLoop u s)).pos_x = (simdLoop u s).pos_x := a1
  have a2' : (scalarLoop u (simdLoop u s)).pos_y = (simdLoop u s).pos_y := a2
  have a3' : (scalarLoop u (simdLoop u s)).prev_pos_x = (simdLoop u s).prev_pos_x := a3
  have a4' : (scalarLoop u (simdLoop u s)).prev_pos_y = (simdLoop u s).prev_pos_y := a4
  have hmem : ∃ p ∈ allPairs, pk p = pk (x, y) :=
    ⟨(x, y), (mem_allPairs _).mpr ⟨hx, hy⟩, rfl⟩
  obtain ⟨hg, hgp⟩ :=
    (copyFold_gpos allPairs (magicStep (scalarLoop u (simdLoop u s))) (pk (x, y))).1 hmem
  have m1 : ∀ t : SimState, (magicStep t).pos_x = t.pos_x := fun _ => rfl
  have m2 : ∀ t : SimState, (magicStep t).pos_y = t.pos_y := fun _ => rfl
  have m3 : ∀ t : SimState, (magicStep t).prev_pos_x = t.prev_pos_x := fun _ => rfl
  have m4 : ∀ t : SimState, (magicStep t).prev_pos_y = t.prev_pos_y := fun _ => rfl
  rw [hI]
  constructor
  · rw [hg, idxK_pk, m1, m2, congrFun a1' (pidx (x, y)), congrFun a2' (pidx (x, y)), e1, e2]
    obtain ⟨s1, s2, s3, s4⟩ := hs x y hx hy
    rw [s1, s2, s3, s4]
    rfl
  · rw [hgp, idxK_pk, m3, m4, congrFun a3' (pidx (x, y)), congrFun a4' (pidx (x, y)), e3, e4]
    obtain ⟨s1, s2, _, _⟩ := hs x y hx hy
    rw [s1, s2]

/-! ### Claim theorems -/

/-- C1: after every relaxation pass - each of which is immediately followed by
the re-pin loop inside the constraint iteration - every point of the pinned
row `y = 0` has its current position equal to its `fix` position, whatever the
pass did to it; and the grid state at the end of every sub-step of the run
satisfies the same invariant. -/
theorem c1_pinned_row (u : ℕ → ℝ) (rest : ℤ × ℤ → Fin 4 → ℝ) (fix : ℤ × ℤ → Vec2)
    (g : Grid) (s : SimState) (x : ℕ) (hx : x < 256) :
    repinPass fix (relaxPass rest g) ((x : ℤ), 0) = fix ((x : ℤ), 0)
    ∧ (subStep u rest fix s).gpos ((x : ℤ), 0) = fix ((x : ℤ), 0) := by
  refine ⟨repinPass_mem fix _ x hx, ?_⟩
  have hcb : ∀ t : SimState, (copyBack t).gpos = t.gpos := fun t =>
    (copyBackFold_frames allPairs t).1
  have hphase : constraintPhase rest fix (integPhase u s)
      = constraintStep rest fix (constraintStep rest fix (constraintStep rest fix
          (constraintStep rest fix (integPhase u s)))) := rfl
  have hcs : ∀ t : SimState, (constraintStep rest fix t).gpos
      = repinPass fix (relaxPass rest t.gpos) := by
    intro t
    simp only [constraintStep]
  simp only [subStep]
  rw [hcb, hphase, hcs]
  exact repinPass_mem fix _ x hx

/-- Witness for C1 at x = 5 with concrete inputs. -/
theorem c1_pinned_row_witness :
    repinPass fix0 (relaxPass rest0 (fun _ => ((0 : ℝ), (0 : ℝ)))) (((5 : ℕ) : ℤ), 0)
        = fix0 (((5 : ℕ) : ℤ), 0)
    ∧ (subStep u0 rest0 fix0 s0).gpos (((5 : ℕ) : ℤ), 0) = fix0 (((5 : ℕ) : ℤ), 0) :=
  c1_pinned_row u0 rest0 fix0 (fun _ => ((0 : ℝ), (0 : ℝ))) s0 5 (by norm_num)

/-- C3: for a processed link with finite distance `d = len (npos - pointpos)`:
if `d > restlength` the two points are pulled together symmetrically by
`(extra * 0.5) • dir` with `extra = d / restlength - 1` and
`dir = npos - pointpos`; if `d ≤ restlength` neither position changes. -/
theorem c3_link_correction (restlength : ℝ) (pointpos npos : Vec2) :
    (len (npos - pointpos) > restlength →
      linkRelax restlength pointpos npos (.fin (len (npos - pointpos)))
        = (pointpos + ((len (npos - pointpos) / restlength - 1) * 0.5) • (npos - pointpos),
           npos - ((len (npos - pointpos) / restlength - 1) * 0.5) • (npos - pointpos)))
    ∧ (len (npos - pointpos) ≤ restlength →
      linkRelax restlength pointpos npos (.fin (len (npos - pointpos)))
        = (pointpos, npos)) := by
  constructor
  · intro h
    simp only [linkRelax, if_pos h]
  · intro h
    simp only [linkRelax, if_neg (not_lt.mpr h)]

/-- Witness for C3 with points (0,0), (3,4) at rest length 1: distance 5. -/
theorem c3_link_correction_witness :
    linkRelax 1 ((0 : ℝ), (0 : ℝ)) ((3 : ℝ), (4 : ℝ))
        (.fin (len (((3 : ℝ), (4 : ℝ)) - ((0 : ℝ), (0 : ℝ)))))
      = (((0 : ℝ), (0 : ℝ))
           + ((len (((3 : ℝ), (4 : ℝ)) - ((0 : ℝ), (0 : ℝ))) / 1 - 1) * 0.5)
              • (((3 : ℝ), (4 : ℝ)) - ((0 : ℝ), (0 : ℝ))),
         ((3 : ℝ), (4 : ℝ))
           - ((len (((3 : ℝ), (4 : ℝ)) - ((0 : ℝ), (0 : ℝ))) / 1 - 1) * 0.5)
              • (((3 : ℝ), (4 : ℝ)) - ((0 : ℝ), (0 : ℝ)))) :=
  (c3_link_correction 1 ((0 : ℝ), (0 : ℝ)) ((3 : ℝ), (4 : ℝ))).1 (by
    have h1 : (((3 : ℝ), (4 : ℝ)) : Vec2) - ((0 : ℝ), (0 : ℝ)) = ((3 : ℝ), (4 : ℝ)) := by
      norm_num [Prod.mk_sub_mk]
    rw [h1]
    have h2 : len ((3 : ℝ), (4 : ℝ)) = 5 := by
      simp only [len]
      rw [show ((3 : ℝ) ^ 2 + (4 : ℝ) ^ 2) = 5 ^ 2 by norm_num]
      exact Real.sqrt_sq (by norm_num)
    rw [h2]
    norm_num)

/-- C7: a non-finite computed distance (NaN or an infinity) makes the
link update used inside the relaxation pass return both positions unchanged:
the link is skipped as defined recovery, nothing is escalated. -/
theorem c7_nonfinite_distance_skipped (restlength : ℝ) (pointpos npos : Vec2)
    (d : FVal) (h : d.isfinite = false) :
    linkRelax restlength pointpos npos d = (pointpos, npos) := by
  cases d with
  | fin x => simp [FVal.isfinite] at h
  | nan => rfl
  | inf => rfl

/-- Witness for C7 at a NaN distance. -/
theorem c7_nonfinite_distance_skipped_witness :
    linkRelax 1 ((0 : ℝ), (0 : ℝ)) ((3 : ℝ), (4 : ℝ)) FVal.nan
      = (((0 : ℝ), (0 : ℝ)), ((3 : ℝ), (4 : ℝ))) :=
  c7_nonfinite_distance_skipped 1 ((0 : ℝ), (0 : ℝ)) ((3 : ℝ), (4 : ℝ)) FVal.nan rfl

/-- C4 counterexample: point (0, 1) is not pinned, yet a relaxation pass
never processes it as "the point" - the traversal covers only the interior
coordinates 1..254. -/
theorem c4_counterexample : ((0, 1) : ℕ × ℕ) ∉ innerPairs ∧ ¬ isPinned (0, 1) := by
  constructor
  · intro h
    have h2 := ((mem_innerPairs (0, 1)).mp h).1.1
    omega
  · simp [isPinned]

/-- C4 amended: the relaxation traversal processes exactly the interior
points 1 ≤ x, y ≤ 254 as "the point" (border points, though not pinned, are
only ever moved in their role as neighbours); for every processed point all
four neighbour links are in bounds, so no out-of-bounds neighbour is ever
accessed. -/
theorem c4_amended (p : ℕ × ℕ) :
    (p ∈ innerPairs ↔ (1 ≤ p.1 ∧ p.1 ≤ 254) ∧ (1 ≤ p.2 ∧ p.2 ≤ 254))
    ∧ (p ∈ innerPairs → ∀ c : Fin 4,
        0 ≤ (nbrKey (pk p) c).1 ∧ (nbrKey (pk p) c).1 < 256
        ∧ 0 ≤ (nbrKey (pk p) c).2 ∧ (nbrKey (pk p) c).2 < 256) := by
  refine ⟨mem_innerPairs p, fun hp c => ?_⟩
  obtain ⟨⟨h1, h2⟩, h3, h4⟩ := (mem_innerPairs p).mp hp
  fin_cases c <;>
    · simp only [nbrKey, pk, xoffset, yoffset]
      refine ⟨?_, ?_, ?_, ?_⟩ <;> omega

/-- Witness for C4 amended at the interior point (5, 7), link 0. -/
theorem c4_amended_witness :
    0 ≤ (nbrKey (pk (5, 7)) 0).1 ∧ (nbrKey (pk (5, 7)) 0).1 < 256
    ∧ 0 ≤ (nbrKey (pk (5, 7)) 0).2 ∧ (nbrKey (pk (5, 7)) 0).2 < 256 :=
  (c4_amended (5, 7)).2 ((c4_amended (5, 7)).1.mpr (by norm_num)) 0

/-- C5 amended: for every interior point (1 ≤ x, y ≤ 254) and each of its
four links, the initialized rest length is the distance between the seeded
positions of the point and that neighbour, times 1.15 (exactly, in the real
idealization of float arithmetic). -/
theorem c5_rest_lengths (p0 : ℤ × ℤ → Vec2) (x y : ℕ) (c : Fin 4)
    (hx1 : 1 ≤ x) (hx2 : x ≤ 254) (hy1 : 1 ≤ y) (hy2 : y ≤ 254) :
    restInit p0 (pk (x, y)) c
      = some (len (p0 (pk (x, y)) - p0 (nbrKey (pk (x, y)) c)) * 1.15) :=
  congrFun (restInit_mem p0 (x, y) ((mem_innerPairs _).mpr ⟨⟨hx1, hx2⟩, hy1, hy2⟩)) c

/-- Witness for C5 amended at point (5, 5), link 0. -/
theorem c5_rest_lengths_witness :
    restInit c00 (pk (5, 5)) 0
      = some (len (c00 (pk (5, 5)) - c00 (nbrKey (pk (5, 5)) 0)) * 1.15) :=
  c5_rest_lengths c00 5 5 0 (by norm_num) (by norm_num) (by norm_num) (by norm_num)

/-- C5 counterexample: point (0, 1) has an in-bounds right neighbour
(link 0), but the initialization loop never writes its rest length, so the
claim "for every point of the grid and every valid neighbour link" fails. -/
theorem c5_counterexample :
    restInit c00 (pk (0, 1)) 0 = none
    ∧ restInit c00 (pk (0, 1)) 0
        ≠ some (len (c00 (pk (0, 1)) - c00 (nbrKey (pk (0, 1)) 0)) * 1.15)
    ∧ 0 ≤ (nbrKey (pk (0, 1)) 0).1 ∧ (nbrKey (pk (0, 1)) 0).1 < 256
    ∧ 0 ≤ (nbrKey (pk (0, 1)) 0).2 ∧ (nbrKey (pk (0, 1)) 0).2 < 256 := by
  have hnone : restInit c00 (pk (0, 1)) = fun _ => none := by
    apply restInit_nomem
    intro p hp hk
    obtain ⟨⟨h1, _⟩, _⟩ := (mem_innerPairs p).mp hp
    have hp01 : p = (0, 1) := pk_injective hk
    rw [hp01] at h1
    simp at h1
  refine ⟨congrFun hnone 0, ?_, by decide, by decide, by decide, by decide⟩
  rw [congrFun hnone 0]
  exact fun hc => Option.noConfusion hc

/-- C9, evaluated at the failing input: the SoA conversion stores
`restlength[1]` of point (1, 0) and `restlength[0]` of point (2, 0) at the
same flat index `rest[2]`, so the rest-length part of the layout is not
injective and hence not a lossless bijection.  (The index used is
`idx + c` where `idx = x + y * 256`; separating the four links would need,
for example, `4 * idx + c`, which is what the array size
`GRIDSIZE * GRIDSIZE * 4` anticipates.) -/
theorem c9_rest_index_collision :
    restIndex 1 0 1 = restIndex 2 0 0 ∧ ((1, 0, 1) : ℕ × ℕ × ℕ) ≠ (2, 0, 0)
    ∧ ¬ Function.Injective (fun q : ℕ × ℕ × ℕ => restIndex q.1 q.2.1 q.2.2) := by
  refine ⟨rfl, by decide, fun hinj => ?_⟩
  have h2 := @hinj (1, 0, 1) (2, 0, 0) (by decide)
  exact absurd h2 (by decide)

theorem foldl_three {σ : Type _} (f : σ → σ) (s : σ) :
    (List.range' 0 3).foldl (fun t _ => f t) s = f (f (f s)) := rfl

theorem foldl_four {σ : Type _} (f : σ → σ) (s : σ) :
    (List.range' 0 4).foldl (fun t _ => f t) s = f (f (f (f s))) := rfl

/-- C2: `Game::Simulation` performs exactly three sub-steps; each sub-step is
the integration phase followed by exactly four constraint iterations, each of
which is one relaxation pass followed by re-pinning the fixed row, followed by
the grid-to-SoA copy; under the array/grid sync invariant (established by
`Game::Init` and re-established at the end of every sub-step) the integration
phase applies the Verlet integrator (with its wind impulse) exactly once to
every point's observable state. -/
theorem c2_substep_structure (u : ℕ → ℝ) (rest : ℤ × ℤ → Fin 4 → ℝ)
    (fix : ℤ × ℤ → Vec2) (s : SimState) (hs : Synced s) :
    Simulation u rest fix s
        = subStep u rest fix (subStep u rest fix (subStep u rest fix s))
    ∧ subStep u rest fix s = copyBack (constraintPhase rest fix (integPhase u s))
    ∧ (∀ t : SimState, constraintPhase rest fix t
        = constraintStep rest fix (constraintStep rest fix (constraintStep rest fix
            (constraintStep rest fix t))))
    ∧ (∀ t : SimState, (constraintStep rest fix t).gpos
        = repinPass fix (relaxPass rest t.gpos))
    ∧ (∀ x y : ℕ, x < 256 → y < 256 →
        (integPhase u s).gpos (pk (x, y))
          = integratorPoint u s.rng s.magic x y (s.gpos (pk (x, y))) (s.gprev (pk (x, y)))
        ∧ (integPhase u s).gprev (pk (x, y)) = s.gpos (pk (x, y)))
    ∧ Synced (subStep u rest fix s) := by
  refine ⟨?_, ?_, ?_, ?_, fun x y hx hy => integPhase_char u s hs x y hx hy, ?_⟩
  · simp only [Simulation]
    exact foldl_three (subStep u rest fix) s
  · simp only [subStep]
  · intro t
    simp only [constraintPhase]
    exact foldl_four (constraintStep rest fix) t
  · intro t
    simp only [constraintStep]
  · simp only [subStep]
    exact copyBack_synced _

/-- Witness for C2: the sync invariant is preserved starting from the
concrete synced state `s0`. -/
theorem c2_substep_structure_witness : Synced (subStep u0 rest0 fix0 s0) :=
  (c2_substep_structure u0 rest0 fix0 s0
    (fun _ _ _ _ => ⟨rfl, rfl, rfl, rfl⟩)).2.2.2.2.2

/-- C10: within a sub-step the scalar AoS integration loop has no effect on
anything the constraint solver or the renderer observes: after the
SoA-to-grid copy, every state component except the random cursor equals what
it would be with the scalar loop skipped entirely, and every grid point holds
exactly the positions produced by the SIMD integration loop. -/
theorem c10_scalar_loop_unobservable (u : ℕ → ℝ) (s : SimState) :
    (integPhase u s).gpos = (integPhaseNoScalar u s).gpos
    ∧ (integPhase u s).gprev = (integPhaseNoScalar u s).gprev
    ∧ (integPhase u s).pos_x = (integPhaseNoScalar u s).pos_x
    ∧ (integPhase u s).pos_y = (integPhaseNoScalar u s).pos_y
    ∧ (integPhase u s).prev_pos_x = (integPhaseNoScalar u s).prev_pos_x
    ∧ (integPhase u s).prev_pos_y = (integPhaseNoScalar u s).prev_pos_y
    ∧ (integPhase u s).magic = (integPhaseNoScalar u s).magic
    ∧ (∀ x y : ℕ, x < 256 → y < 256 →
        (integPhase u s).gpos (pk (x, y))
          = ((simdLoop u s).pos_x (pidx (x, y)), (simdLoop u s).pos_y (pidx (x, y)))
        ∧ (integPhase u s).gprev (pk (x, y))
          = ((simdLoop u s).prev_pos_x (pidx (x, y)),
             (simdLoop u s).prev_pos_y (pidx (x, y)))) := by
  have m1 : ∀ t : SimState, (magicStep t).pos_x = t.pos_x := fun _ => rfl
  have m2 : ∀ t : SimState, (magicStep t).pos_y = t.pos_y := fun _ => rfl
  have m3 : ∀ t : SimState, (magicStep t).prev_pos_x = t.prev_pos_x := fun _ => rfl
  have m4 : ∀ t : SimState, (magicStep t).prev_pos_y = t.prev_pos_y := fun _ => rfl
  have m5 : ∀ t : SimState, (magicStep t).gpos = t.gpos := fun _ => rfl
  have m6 : ∀ t : SimState, (magicStep t).gprev = t.gprev := fun _ => rfl
  have m7 : ∀ t : SimState, (magicStep t).magic = t.magic + 0.0002 := fun _ => rfl
  obtain ⟨a1, a2, a3, a4, a5, a6⟩ := scalarFold_frame u allPairs (simdLoop u s)
  have a1' : (scalarLoop u (simdLoop u s)).pos_x = (simdLoop u s).pos_x := by
    simp only [scalarLoop, scalarLoopOrder]
    exact a1
  have a2' : (scalarLoop u (simdLoop u s)).pos_y = (simdLoop u s).pos_y := by
    simp only [scalarLoop, scalarLoopOrder]
    exact a2
  have a3' : (scalarLoop u (simdLoop u s)).prev_pos_x = (simdLoop u s).prev_pos_x := by
    simp only [scalarLoop, scalarLoopOrder]
    exact a3
  have a4' : (scalarLoop u (simdLoop u s)).prev_pos_y = (simdLoop u s).prev_pos_y := by
    simp only [scalarLoop, scalarLoopOrder]
    exact a4
  have a5' : (scalarLoop u (simdLoop u s)).magic = (simdLoop u s).magic := by
    simp only [scalarLoop, scalarLoopOrder]
    exact a5
  have a6' : ∀ k, (∀ p ∈ allPairs, pk p ≠ k) →
      (scalarLoop u (simdLoop u s)).gpos k = (simdLoop u s).gpos k
      ∧ (scalarLoop u (simdLoop u s)).gprev k = (simdLoop u s).gprev k := by
    simp only [scalarLoop, scalarLoopOrder]
    exact a6
  have hI1 : integPhase u s
      = List.foldl copyToGridBody (magicStep (scalarLoop u (simdLoop u s))) allPairs := rfl
  have hI2 : integPhaseNoScalar u s
      = List.foldl copyToGridBody (magicStep (simdLoop u s)) allPairs := rfl
  obtain ⟨f1, f2, f3, f4, f5, f6⟩ :=
    copyFold_frames allPairs (magicStep (scalarLoop u (simdLoop u s)))
  obtain ⟨g1, g2, g3, g4, g5, g6⟩ := copyFold_frames allPairs (magicStep (simdLoop u s))
  refine ⟨?_, ?_, ?_, ?_, ?_, ?_, ?_, ?_⟩
  · rw [hI1, hI2]
    funext k
    by_cases hk : ∃ p ∈ allPairs, pk p = k
    · obtain ⟨e1, _⟩ :=
        (copyFold_gpos allPairs (magicStep (scalarLoop u (simdLoop u s))) k).1 hk
      obtain ⟨e2, _⟩ := (copyFold_gpos allPairs (magicStep (simdLoop u s)) k).1 hk
      rw [e1, e2]
      simp only [m1, m2]
      rw [congrFun a1' (idxK k), congrFun a2' (idxK k)]
    · push_neg at hk
      obtain ⟨e1, _⟩ :=
        (copyFold_gpos allPairs (magicStep (scalarLoop u (simdLoop u s))) k).2 hk
      obtain ⟨e2, _⟩ := (copyFold_gpos allPairs (magicStep (simdLoop u s)) k).2 hk
      rw [e1, e2]
      simp only [m5]
      exact (a6' k hk).1
  · rw [hI1, hI2]
    funext k
    by_cases hk : ∃ p ∈ allPairs, pk p = k
    · obtain ⟨_, e1⟩ :=
        (copyFold_gpos allPairs (magicStep (scalarLoop u (simdLoop u s))) k).1 hk
      obtain ⟨_, e2⟩ := (copyFold_gpos allPairs (magicStep (simdLoop u s)) k).1 hk
      rw [e1, e2]
      simp only [m3, m4]
      rw [congrFun a3' (idxK k), congrFun a4' (idxK k)]
    · push_neg at hk
      obtain ⟨_, e1⟩ :=
        (copyFold_gpos allPairs (magicStep (scalarLoop u (simdLoop u s))) k).2 hk
      obtain ⟨_, e2⟩ := (copyFold_gpos allPairs (magicStep (simdLoop u s)) k).2 hk
      rw [e1, e2]
      simp only [m6]
      exact (a6' k hk).2
  · rw [hI1, hI2, f1, g1]
    simp only [m1]
    exact a1'
  · rw [hI1, hI2, f2, g2]
    simp only [m2]
    exact a2'
  · rw [hI1, hI2, f3, g3]
    simp only [m3]
    exact a3'
  · rw [hI1, hI2, f4, g4]
    simp only [m4]
    exact a4'
  · rw [hI1, hI2, f5, g5]
    simp only [m7]
    rw [a5']
  · intro x y hx hy
    have hmem : ∃ p ∈ allPairs, pk p = pk (x, y) :=
      ⟨(x, y), (mem_allPairs _).mpr ⟨hx, hy⟩, rfl⟩
    obtain ⟨e1, e2⟩ :=
      (copyFold_gpos allPairs (magicStep (scalarLoop u (simdLoop u s))) (pk (x, y))).1 hmem
    constructor
    · rw [hI1, e1, idxK_pk]
      simp only [m1, m2]
      rw [congrFun a1' (pidx (x, y)), congrFun a2' (pidx (x, y))]
    · rw [hI1, e2, idxK_pk]
      simp only [m3, m4]
      rw [congrFun a3' (pidx (x, y)), congrFun a4' (pidx (x, y))]

/-- Witness for C10 at point (0, 0) from the concrete state `s0`. -/
theorem c10_scalar_loop_unobservable_witness :
    (integPhase u0 s0).gpos (pk (0, 0))
      = ((simdLoop u0 s0).pos_x (pidx (0, 0)), (simdLoop u0 s0).pos_y (pidx (0, 0)))
    ∧ (integPhase u0 s0).gprev (pk (0, 0))
      = ((simdLoop u0 s0).prev_pos_x (pidx (0, 0)),
         (simdLoop u0 s0).prev_pos_y (pidx (0, 0))) :=
  (c10_scalar_loop_unobservable u0 s0).2.2.2.2.2.2.2 0 0 (by norm_num) (by norm_num)

/-- The wind chance test accepts exactly the draws in [0, 0.03) out of the
uniform draw range [0, 10). -/
theorem windAccept_inter : windAccept ∩ windDrawRange = Set.Ico (0 : ℝ) 0.03 := by
  ext d
  simp only [windAccept, windDrawRange, Set.mem_inter_iff, Set.mem_setOf_eq, Set.mem_Ico]
  constructor
  · rintro ⟨h1, h2, _⟩
    exact ⟨h2, h1⟩
  · rintro ⟨h1, h2⟩
    refine ⟨h2, h1, ?_⟩
    linarith

/-- C6 amended: per sub-step each point receives a stochastic impulse decided
by one chance draw `Rand(10)` (uniform on [0, 10)) compared against the
threshold 0.03 - an event of probability 0.003, not 0.03; when it hits, the
impulse adds `(random_x, random_y)` with `random_x` uniform in
`[0, 0.02 + magic)` and `random_y` uniform in `[0, 0.12)`, and `magic` (hence
the wind range `0.02 + magic`) increases by 0.0002 once per sub-step. -/
theorem c6_wind_impulse :
    (∀ (u : ℕ → ℝ) (magic : ℝ) (base l : ℕ) (cx px cy py : ℝ),
      (u (base + (3 - l)) * 10 < 0.03 →
        laneX u magic base l cx px
            = cx + (cx - px) + u (base + 4 + (3 - l)) * (0.02 + magic)
        ∧ laneY u base l cy py
            = cy + (cy - py) + 0.003 + u (base + 8 + (3 - l)) * 0.12)
      ∧ (¬ u (base + (3 - l)) * 10 < 0.03 →
        laneX u magic base l cx px = cx + (cx - px)
        ∧ laneY u base l cy py = cy + (cy - py) + 0.003))
    ∧ (∀ (u : ℕ → ℝ) (magic : ℝ) (base l : ℕ) (cx px : ℝ),
        u (base + (3 - l)) * 10 < 0.03 →
        0 ≤ u (base + 4 + (3 - l)) → u (base + 4 + (3 - l)) < 1 →
        0 < 0.02 + magic →
        laneX u magic base l cx px - (cx + (cx - px)) ∈ Set.Ico 0 (0.02 + magic))
    ∧ (∀ (u : ℕ → ℝ) (base l : ℕ) (cy py : ℝ),
        u (base + (3 - l)) * 10 < 0.03 →
        0 ≤ u (base + 8 + (3 - l)) → u (base + 8 + (3 - l)) < 1 →
        laneY u base l cy py - (cy + (cy - py) + 0.003) ∈ Set.Ico (0 : ℝ) 0.12)
    ∧ (∀ s : SimState, (magicStep s).magic = s.magic + 0.0002)
    ∧ MeasureTheory.volume (windAccept ∩ windDrawRange)
        = ENNReal.ofReal 0.003 * MeasureTheory.volume windDrawRange := by
  refine ⟨?_, ?_, ?_, fun _ => rfl, ?_⟩
  · intro u magic base l cx px cy py
    constructor
    · intro h
      constructor
      · simp only [laneX, if_pos h]
      · simp only [laneY, if_pos h]
    · intro h
      constructor
      · simp only [laneX, if_neg h]
        ring
      · simp only [laneY, if_neg h]
        ring
  · intro u magic base l cx px h h0 h1 hr
    simp only [laneX, if_pos h]
    constructor
    · have := mul_nonneg h0 (le_of_lt hr)
      linarith
    · have := mul_lt_of_lt_one_left hr h1
      linarith
  · intro u base l cy py h h0 h1
    simp only [laneY, if_pos h]
    constructor
    · nlinarith
    · nlinarith
  · rw [windAccept_inter, windDrawRange, Real.volume_Ico, Real.volume_Ico,
      ← ENNReal.ofReal_mul (by norm_num)]
    norm_num

/-- C6 counterexample: the acceptance event has measure 0.03 inside the
draw range [0, 10) of total measure 10, so its probability is 0.003 - it is
not an event of probability 0.03 over the per-point chance draw. -/
theorem c6_wind_chance_counterexample :
    MeasureTheory.volume (windAccept ∩ windDrawRange)
      ≠ ENNReal.ofReal 0.03 * MeasureTheory.volume windDrawRange := by
  rw [windAccept_inter, windDrawRange, Real.volume_Ico, Real.volume_Ico,
    ← ENNReal.ofReal_mul (by norm_num)]
  intro h
  have h2 := congrArg ENNReal.toReal h
  rw [ENNReal.toReal_ofReal (by norm_num), ENNReal.toReal_ofReal (by norm_num)] at h2
  norm_num at h2

/-- Witness for C6 amended: a hitting draw stream with x impulse in range. -/
theorem c6_wind_impulse_witness :
    laneX (fun _ => 0) 1 0 0 0 0 - (0 + (0 - 0)) ∈ Set.Ico (0 : ℝ) (0.02 + 1) :=
  c6_wind_impulse.2.1 (fun _ => 0) 1 0 0 0 0 (by norm_num) (by norm_num) (by norm_num)
    (by norm_num)

/-! ### C8: processing order and the shared random stream -/

theorem pointIntegrate_rng_hit (u : ℕ → ℝ) (t : SimState) (p : ℕ × ℕ)
    (h : u t.rng * 10 < 0.03) : (pointIntegrate u t p).rng = t.rng + 3 := by
  simp only [pointIntegrate, if_pos h]

theorem pointIntegrate_gpos_self_hit (u : ℕ → ℝ) (t : SimState) (p : ℕ × ℕ)
    (h : u t.rng * 10 < 0.03) :
    (pointIntegrate u t p).gpos (pk p)
      = t.gpos (pk p) + (t.gpos (pk p) - t.gprev (pk p)) + ((0 : ℝ), (0.003 : ℝ))
        + (u (t.rng + 1) * (0.02 + t.magic), u (t.rng + 2) * 0.12) := by
  simp only [pointIntegrate, if_pos h, Function.update_same]

theorem pointIntegrate_gpos_self_miss (u : ℕ → ℝ) (t : SimState) (p : ℕ × ℕ)
    (h : ¬ u t.rng * 10 < 0.03) :
    (pointIntegrate u t p).gpos (pk p)
      = t.gpos (pk p) + (t.gpos (pk p) - t.gprev (pk p)) + ((0 : ℝ), (0.003 : ℝ)) := by
  simp only [pointIntegrate, if_neg h, Function.update_same]

/-- Two integrator body applications with per-point assigned draws commute:
each touches only its own grid entries. -/
theorem pointIntegrateAssigned_comm (d : ℕ × ℕ → ℝ × ℝ × ℝ) (s : SimState)
    (p q : ℕ × ℕ) :
    pointIntegrateAssigned d (pointIntegrateAssigned d s p) q
      = pointIntegrateAssigned d (pointIntegrateAssigned d s q) p := by
  rcases eq_or_ne p q with rfl | hpq
  · rfl
  · have hk : pk p ≠ pk q := fun h => hpq (pk_injective h)
    apply SimState.ext <;>
      simp only [pointIntegrateAssigned, Function.update_noteq hk,
        Function.update_noteq (Ne.symm hk)]
    · exact Function.update_comm hk _ _ _
    · exact Function.update_comm hk _ _ _

/-- C8 amended: when each point's random draws are a fixed function of the
point itself - as the spec requires of a per-point reproducible randomness
source - the integrator is order-independent: any permutation of the
processing order produces the identical state. -/
theorem c8_assigned_order_independent (d : ℕ × ℕ → ℝ × ℝ × ℝ)
    (l l' : List (ℕ × ℕ)) (h : l.Perm l') :
    ∀ s : SimState, assignedLoop d l s = assignedLoop d l' s := by
  induction h with
  | nil =>
    intro s
    rfl
  | cons x h ih =>
    intro s
    simp only [assignedLoop, List.foldl_cons] at ih ⊢
    exact ih (pointIntegrateAssigned d s x)
  | swap x y l =>
    intro s
    simp only [assignedLoop, List.foldl_cons]
    rw [pointIntegrateAssigned_comm]
  | trans h1 h2 ih1 ih2 =>
    intro s
    exact (ih1 s).trans (ih2 s)

/-- Witness for C8 amended: swapping a two-point order with assigned draws. -/
theorem c8_assigned_order_independent_witness :
    assignedLoop (fun _ => (1, 1, 1)) [(0, 0), (1, 0)] s0
      = assignedLoop (fun _ => (1, 1, 1)) [(1, 0), (0, 0)] s0 :=
  c8_assigned_order_independent (fun _ => (1, 1, 1)) _ _
    (List.Perm.swap (1, 0) (0, 0) []) s0

/-- C8 counterexample: with the code's shared sequential random stream,
swapping the first two points of the integration traversal changes the
resulting position of point (0, 0) - the integrator is not order-independent
as implemented.  Stream: draw 0 hits the wind chance, all later draws miss. -/
theorem c8_order_dependence :
    (swapFirstTwo allPairs).Perm allPairs
    ∧ (scalarLoopOrder u0 (swapFirstTwo allPairs) s0).gpos (pk (0, 0))
        ≠ (scalarLoopOrder u0 allPairs s0).gpos (pk (0, 0)) := by
  have hcons : allPairs = (0, 0) :: (1, 0) :: allPairs.drop 2 := allPairs_cons
  have hswap : swapFirstTwo allPairs = (1, 0) :: (0, 0) :: allPairs.drop 2 := by
    rw [hcons]
    rfl
  constructor
  · rw [hswap]
    nth_rewrite 2 [hcons]
    exact List.Perm.swap (0, 0) (1, 0) (allPairs.drop 2)
  · have hframe : ∀ t : SimState,
        ((allPairs.drop 2).foldl (pointIntegrate u0) t).gpos (pk (0, 0))
          = t.gpos (pk (0, 0)) := by
      intro t
      refine ((scalarFold_frame u0 (allPairs.drop 2) t).2.2.2.2.2 (pk (0, 0)) ?_).1
      intro p hp hk
      exact not_mem_drop2 ((pk_injective hk) ▸ hp)
    have hA : scalarLoopOrder u0 allPairs s0
        = (allPairs.drop 2).foldl (pointIntegrate u0)
            (pointIntegrate u0 (pointIntegrate u0 s0 (0, 0)) (1, 0)) := by
      simp only [scalarLoopOrder]
      conv_lhs => rw [hcons]
      rw [List.foldl_cons, List.foldl_cons]
    have hB : scalarLoopOrder u0 (swapFirstTwo allPairs) s0
        = (allPairs.drop 2).foldl (pointIntegrate u0)
            (pointIntegrate u0 (pointIntegrate u0 s0 (1, 0)) (0, 0)) := by
      simp only [scalarLoopOrder]
      rw [hswap, List.foldl_cons, List.foldl_cons]
    rw [hA, hB, hframe, hframe]
    have hit0 : u0 s0.rng * 10 < 0.03 := by
      norm_num [u0, s0]
    have hne' : pk (1, 0) ≠ pk (0, 0) := by decide
    obtain ⟨_, _, _, _, _, hother1⟩ := pointIntegrate_frame u0 s0 (1, 0)
    obtain ⟨hg1, hp1⟩ := hother1 (pk (0, 0)) hne'
    have hrng1 : (pointIntegrate u0 s0 (1, 0)).rng = s0.rng + 3 :=
      pointIntegrate_rng_hit u0 s0 (1, 0) hit0
    have miss1 : ¬ u0 (pointIntegrate u0 s0 (1, 0)).rng * 10 < 0.03 := by
      rw [hrng1]
      norm_num [u0, s0]
    have hBval : (pointIntegrate u0 (pointIntegrate u0 s0 (1, 0)) (0, 0)).gpos (pk (0, 0))
        = s0.gpos (pk (0, 0)) + (s0.gpos (pk (0, 0)) - s0.gprev (pk (0, 0)))
          + ((0 : ℝ), (0.003 : ℝ)) := by
      rw [pointIntegrate_gpos_self_miss u0 _ (0, 0) miss1, hg1, hp1]
    have hAval : (pointIntegrate u0 (pointIntegrate u0 s0 (0, 0)) (1, 0)).gpos (pk (0, 0))
        = s0.gpos (pk (0, 0)) + (s0.gpos (pk (0, 0)) - s0.gprev (pk (0, 0)))
          + ((0 : ℝ), (0.003 : ℝ))
          + (u0 (s0.rng + 1) * (0.02 + s0.magic), u0 (s0.rng + 2) * 0.12) := by
      obtain ⟨_, _, _, _, _, hother2⟩ :=
        pointIntegrate_frame u0 (pointIntegrate u0 s0 (0, 0)) (1, 0)
      obtain ⟨hg2, _⟩ := hother2 (pk (0, 0)) hne'
      rw [hg2, pointIntegrate_gpos_self_hit u0 s0 (0, 0) hit0]
    intro hcontra
    rw [hBval, hAval] at hcontra
    have h1 := congrArg Prod.fst hcontra
    simp [s0, u0] at h1
    norm_num at h1
